import Mathlib

/-!
Verification of the django-mongoadmin permission reconciler
(`mongoadmin/management/__init__.py`) and the admin-site substitution
performed at import time (`mongoadmin/__init__.py`).

The embedding models:
  - registry entries (model classes with their meta attributes),
  - the relational content-type table with Django's lookup-or-create
    semantics (`ContentType.objects.get_for_model`),
  - the permission table, and
  - `create_permissions` as a function from a database state to a run result
    carrying the new state, the inserted rows, and the optional
    `ValidationError` message.

Integer arithmetic that Python performs on `int` (the
`permission_name_max_length - 11` bound) is carried out on `Int`.
-/

namespace MongoAdmin

/-- A model class as registered in the admin site registry: the meta
attributes consumed by `create_permissions`, plus whether the class is an
instance of `TopLevelDocumentMetaclass` (a mongoengine document). -/
structure MongoModel where
  app_label : String
  model_name : String
  verbose_name : String
  verbose_name_raw : String
  isDocument : Bool
deriving DecidableEq, Repr

/-- A row of the `django_content_type` table: a primary key plus the
(app_label, model) pair identifying a model class. -/
structure ContentType where
  pk : Nat
  app_label : String
  model : String
deriving DecidableEq, Repr

/-- A row of the `auth_permission` table. The `content_type` field stores
the full content-type record, as the Python `Permission` object holds the
`ContentType` instance; comparisons against the database use its `pk`. -/
structure Permission where
  content_type : ContentType
  codename : String
  name : String
deriving DecidableEq, Repr

/-- The three default actions, as in the tuple
`('add', 'change', 'delete')` iterated by `get_default_permissions`. -/
def default_actions : List String := ["add", "change", "delete"]

/-- Django's `get_permission_codename(action, opts)` helper:
`'%s_%s' % (action, opts.model_name)`. -/
def get_permission_codename (action : String) (m : MongoModel) : String :=
  action ++ "_" ++ m.model_name

/-- `get_default_permissions(opts)`: the (codename, name) pairs
`(get_permission_codename(action, opts), 'Can %s %s' % (action, opts.verbose_name_raw))`
for the three default actions. -/
def get_default_permissions (m : MongoModel) : List (String × String) :=
  default_actions.map (fun action =>
    (get_permission_codename action m, "Can " ++ action ++ " " ++ m.verbose_name_raw))

/-- `get_mongo_models()`: the keys of `site._registry` that are instances
of `TopLevelDocumentMetaclass`. -/
def get_mongo_models (registry : List MongoModel) : List MongoModel :=
  registry.filter (fun m => m.isDocument)

/-- Whether a content-type row identifies the given model class (matching
(app_label, model)). -/
def ctKey (m : MongoModel) (ct : ContentType) : Bool :=
  ct.app_label == m.app_label && ct.model == m.model_name

/-- A primary key not used by any row of the table (auto-increment). -/
def freshPk (tbl : List ContentType) : Nat :=
  (tbl.map (fun ct => ct.pk)).foldr max 0 + 1

/-- `ContentType.objects.db_manager(using).get_for_model(klass)`: return the
existing content-type row for the model, creating (appending) one with a
fresh primary key when absent. -/
def get_for_model (tbl : List ContentType) (m : MongoModel) :
    ContentType × List ContentType :=
  match tbl.find? (ctKey m) with
  | some ct => (ct, tbl)
  | none =>
      (⟨freshPk tbl, m.app_label, m.model_name⟩,
       tbl ++ [⟨freshPk tbl, m.app_label, m.model_name⟩])

/-- Output of the first loop of `create_permissions`: the content-type
table after the lookups, the `ctypes` collection, and `searched_perms` as
(content_type, (codename, name)) in iteration order. -/
structure CollectOut where
  tbl : List ContentType
  cts : List ContentType
  searched : List (ContentType × (String × String))
deriving DecidableEq, Repr

/-- The first loop of `create_permissions`: for each model, look up its
content type (creating it if needed), then raise `ValidationError` when
`len(klass._meta.verbose_name) > verbose_name_max_length`, else accumulate
the content type and the three searched permissions. On error the pair
carries the content-type table as already mutated by the lookups. -/
def collectPerms (vmax : Int) :
    List MongoModel → List ContentType →
    Except (List ContentType × String) CollectOut
  | [], tbl => .ok ⟨tbl, [], []⟩
  | k :: ks, tbl =>
      let r := get_for_model tbl k
      if (k.verbose_name.length : Int) > vmax then
        .error (r.2, "The verbose_name of " ++ r.1.app_label ++ "." ++ r.1.model ++
          " is longer than " ++ toString vmax ++ " characters")
      else
        match collectPerms vmax ks r.2 with
        | .error e => .error e
        | .ok out =>
            .ok ⟨out.tbl, r.1 :: out.cts,
              (get_default_permissions k).map (fun pr => (r.1, pr)) ++ out.searched⟩

/-- The (content_type pk, codename) pair of a permission row, as produced
by `values_list("content_type", "codename")`. -/
def permPair (p : Permission) : Nat × String := (p.content_type.pk, p.codename)

/-- The `all_perms` query: the (content_type, codename) pairs of the
permission rows whose content type is among the collected ones. -/
def existingPairs (cts : List ContentType) (perms : List Permission) :
    List (Nat × String) :=
  (perms.filter (fun p => cts.any (fun c => c.pk == p.content_type.pk))).map permPair

/-- The `perms` list comprehension: one new `Permission` per searched pair
whose (content_type pk, codename) is not already present. -/
def missingPerms (pairs : List (Nat × String))
    (searched : List (ContentType × (String × String))) : List Permission :=
  searched.filterMap (fun e =>
    if (e.1.pk, e.2.1) ∈ pairs then none
    else some ⟨e.1, e.2.1, e.2.2⟩)

/-- The relational state touched by the reconciler: the content-type table
and the permission table. -/
structure DBState where
  ctypes : List ContentType
  perms : List Permission
deriving DecidableEq, Repr

/-- The parts of `app_config` consulted: whether `models_module` is set. -/
structure AppConfig where
  models_module : Bool
deriving DecidableEq, Repr

/-- Ambient framework state: whether `apps.get_model('auth', 'Permission')`
resolves, whether `router.allow_migrate_model(using, Permission)` allows the
target alias, the max_length of the permission `name` field, and the keys of
`site._registry`. -/
structure Env where
  permission_resolvable : Bool
  allow_migrate : Bool
  permission_name_max_length : Nat
  registry : List MongoModel
deriving DecidableEq, Repr

/-- Result of one `create_permissions` invocation: the database state after
the call (including the effect of content-type lookups on aborted runs),
the rows passed to `bulk_create`, the `ValidationError` message when one is
raised, and whether the run stopped at an eligibility check. -/
structure RunResult where
  state : DBState
  inserted : List Permission
  error : Option String
  skipped : Bool
deriving DecidableEq, Repr

/-- `create_permissions(app_config, ..., using)`: eligibility checks, the
content-type/validation loop, the `all_perms` query, the missing-permission
comprehension, the per-row name-length re-check, and the bulk insert. -/
def create_permissions (env : Env) (app_config : AppConfig) (st : DBState) :
    RunResult :=
  if !app_config.models_module then ⟨st, [], none, true⟩
  else if !env.permission_resolvable then ⟨st, [], none, true⟩
  else if !env.allow_migrate then ⟨st, [], none, true⟩
  else
    let pmax := env.permission_name_max_length
    let vmax : Int := (pmax : Int) - 11
    match collectPerms vmax (get_mongo_models env.registry) st.ctypes with
    | .error e => ⟨⟨e.1, st.perms⟩, [], some e.2, false⟩
    | .ok out =>
        let all_perms := existingPairs out.cts st.perms
        let perms := missingPerms all_perms out.searched
        match perms.find? (fun p => decide (p.name.length > pmax)) with
        | some p =>
            ⟨⟨out.tbl, st.perms⟩, [],
             some ("The permission name " ++ p.name ++ " of " ++
               p.content_type.app_label ++ "." ++ p.content_type.model ++
               " is longer than " ++ toString pmax ++ " characters"), false⟩
        | none => ⟨⟨out.tbl, st.perms ++ perms⟩, perms, none, false⟩

/-- An admin site object: an identity (object identity of the Python
instance) and its `_registry` mapping, model class to admin options. -/
structure AdminSite where
  siteId : Nat
  registry : List (MongoModel × String)
deriving DecidableEq, Repr

/-- The globals touched by `mongoadmin/__init__.py`:
`django.contrib.admin.site`, `django.contrib.admin.sites.site`, and the
mongoadmin `site` instance. -/
structure AdminGlobals where
  admin_site : AdminSite
  admin_sites_site : AdminSite
  mongo_site : AdminSite
deriving DecidableEq, Repr

/-- `StrictVersion` comparison on parsed version-number components. -/
def versionLt : List Nat → List Nat → Bool
  | _, [] => false
  | [], _ :: _ => true
  | x :: xs, y :: ys => x < y || (x == y && versionLt xs ys)

/-- The module-level block of `mongoadmin/__init__.py`: when
`MONGOADMIN_OVERRIDE_ADMIN` is set, carry the already registered entries
over into the mongoadmin site's `_registry` and install that site at the
global attribute selected by comparing the Django version with 1.9;
otherwise do nothing. -/
def override_admin (flag : Bool) (django_version : List Nat)
    (g : AdminGlobals) : AdminGlobals :=
  if flag then
    if versionLt django_version [1, 9, 0] then
      let s : AdminSite := { g.mongo_site with registry := g.admin_site.registry }
      { g with mongo_site := s, admin_site := s }
    else
      let s : AdminSite := { g.mongo_site with registry := g.admin_sites_site.registry }
      { g with mongo_site := s, admin_sites_site := s }
  else g

/-! ## Basic list and string lemmas -/

theorem find?_append_left {α : Type} {p : α → Bool} {l : List α} (l' : List α)
    {x : α} (h : l.find? p = some x) : (l ++ l').find? p = some x := by
  induction l with
  | nil => simp [List.find?] at h
  | cons a t ih =>
      by_cases hpa : p a = true
      · rw [List.find?_cons_of_pos _ hpa] at h
        rw [List.cons_append, List.find?_cons_of_pos _ hpa]
        exact h
      · rw [List.find?_cons_of_neg _ (by simpa using hpa)] at h
        rw [List.cons_append, List.find?_cons_of_neg _ (by simpa using hpa)]
        exact ih h

theorem find?_append_none {α : Type} {p : α → Bool} {l : List α} (l' : List α)
    (h : l.find? p = none) : (l ++ l').find? p = l'.find? p := by
  induction l with
  | nil => simp
  | cons a t ih =>
      by_cases hpa : p a = true
      · rw [List.find?_cons_of_pos _ hpa] at h
        cases h
      · rw [List.find?_cons_of_neg _ (by simpa using hpa)] at h
        rw [List.cons_append, List.find?_cons_of_neg _ (by simpa using hpa)]
        exact ih h

theorem string_append_cancel_right {s t u : String} (h : s ++ u = t ++ u) :
    s = t := by
  have hd : s.data ++ u.data = t.data ++ u.data := by
    have hq := congrArg String.data h
    simpa [String.data_append] using hq
  have hst : s.data = t.data := List.append_cancel_right hd
  cases s; cases t
  exact congrArg String.mk (by simpa using hst)

/-- Two actions producing the same codename for one model are equal. -/
theorem codename_inj {a b : String} {m : MongoModel}
    (h : get_permission_codename a m = get_permission_codename b m) : a = b := by
  unfold get_permission_codename at h
  exact string_append_cancel_right (string_append_cancel_right h)

theorem countP_le_one_of_nodup_map {α β : Type} [DecidableEq β] {f : α → β}
    {l : List α} (hnd : (l.map f).Nodup) (v : β) :
    l.countP (fun x => decide (f x = v)) ≤ 1 := by
  induction l with
  | nil => simp
  | cons a t ih =>
      rw [List.map_cons, List.nodup_cons] at hnd
      rw [List.countP_cons]
      by_cases hv : f a = v
      · have ht : t.countP (fun x => decide (f x = v)) = 0 := by
          rw [List.countP_eq_zero]
          intro x hx hfx
          exact hnd.1 (hv ▸ (of_decide_eq_true hfx) ▸ List.mem_map_of_mem f hx)
        simp [ht, hv]
      · simpa [hv] using ih hnd.2

/-! ## Lemmas about the content-type lookup -/

theorem le_foldr_max {l : List Nat} {x : Nat} (hx : x ∈ l) :
    x ≤ l.foldr max 0 := by
  induction l with
  | nil => cases hx
  | cons a t ih =>
      rcases List.mem_cons.1 hx with rfl | h
      · exact le_max_left _ _
      · exact le_trans (ih h) (le_max_right _ _)

theorem pk_lt_freshPk {tbl : List ContentType} {ct : ContentType}
    (h : ct ∈ tbl) : ct.pk < freshPk tbl :=
  Nat.lt_succ_of_le (le_foldr_max (List.mem_map_of_mem (fun c => c.pk) h))

theorem gfm_snd_eq (tbl : List ContentType) (m : MongoModel) :
    ∃ ext, (get_for_model tbl m).2 = tbl ++ ext := by
  unfold get_for_model
  cases h : tbl.find? (ctKey m) with
  | some ct => exact ⟨[], by simp⟩
  | none => exact ⟨[⟨freshPk tbl, m.app_label, m.model_name⟩], rfl⟩

theorem gfm_find (tbl : List ContentType) (m : MongoModel) :
    (get_for_model tbl m).2.find? (ctKey m) = some (get_for_model tbl m).1 := by
  unfold get_for_model
  cases h : tbl.find? (ctKey m) with
  | some ct => simpa using h
  | none =>
      simp only
      rw [find?_append_none _ h]
      rw [List.find?_cons_of_pos]
      simp [ctKey]

theorem gfm_key (tbl : List ContentType) (m : MongoModel) :
    ctKey m (get_for_model tbl m).1 = true :=
  List.find?_some (gfm_find tbl m)

theorem gfm_mem (tbl : List ContentType) (m : MongoModel) :
    (get_for_model tbl m).1 ∈ (get_for_model tbl m).2 :=
  List.mem_of_find?_eq_some (gfm_find tbl m)

theorem gfm_found {tbl : List ContentType} {m : MongoModel} {ct : ContentType}
    (h : tbl.find? (ctKey m) = some ct) : get_for_model tbl m = (ct, tbl) := by
  unfold get_for_model
  rw [h]

theorem gfm_nodup {tbl : List ContentType} (m : MongoModel)
    (h : (tbl.map (fun c => c.pk)).Nodup) :
    ((get_for_model tbl m).2.map (fun c => c.pk)).Nodup := by
  unfold get_for_model
  cases hf : tbl.find? (ctKey m) with
  | some ct => simpa using h
  | none =>
      simp only [List.map_append, List.map_cons, List.map_nil]
      refine h.append (List.nodup_singleton _) ?_
      intro x hx hy
      simp only [List.mem_singleton] at hy
      rcases List.mem_map.1 hx with ⟨c, hc, hcpk⟩
      subst hy
      exact absurd (hcpk ▸ rfl) (Nat.ne_of_lt (hcpk ▸ pk_lt_freshPk hc))

/-! ## Lemmas about the first loop -/

theorem ctKey_eq {m : MongoModel} {ct : ContentType} (h : ctKey m ct = true) :
    ct.app_label = m.app_label ∧ ct.model = m.model_name := by
  simpa [ctKey] using h

theorem key_clash {m m' : MongoModel} {ct : ContentType}
    (h1 : ctKey m ct = true) (h2 : ctKey m' ct = true) :
    m.app_label = m'.app_label ∧ m.model_name = m'.model_name := by
  obtain ⟨a1, b1⟩ := ctKey_eq h1
  obtain ⟨a2, b2⟩ := ctKey_eq h2
  exact ⟨by rw [← a1, a2], by rw [← b1, b2]⟩

theorem collect_ok_tbl {vmax : Int} {models : List MongoModel}
    {tbl : List ContentType} {out : CollectOut}
    (h : collectPerms vmax models tbl = .ok out) : ∃ ext, out.tbl = tbl ++ ext := by
  induction models generalizing tbl out with
  | nil =>
      simp only [collectPerms] at h
      cases h
      exact ⟨[], by simp⟩
  | cons k ks ih =>
      simp only [collectPerms] at h
      by_cases hchk : (k.verbose_name.length : Int) > vmax
      · simp [hchk] at h
      · rw [if_neg hchk] at h
        cases hrec : collectPerms vmax ks (get_for_model tbl k).2 with
        | error e => rw [hrec] at h; cases h
        | ok out' =>
            rw [hrec] at h
            cases h
            obtain ⟨ext1, he1⟩ := gfm_snd_eq tbl k
            obtain ⟨ext2, he2⟩ := ih hrec
            exact ⟨ext1 ++ ext2, by
              simp only [he2, he1, List.append_assoc]⟩

theorem collect_err_tbl {vmax : Int} {models : List MongoModel}
    {tbl : List ContentType} {e : List ContentType × String}
    (h : collectPerms vmax models tbl = .error e) : ∃ ext, e.1 = tbl ++ ext := by
  induction models generalizing tbl with
  | nil => simp only [collectPerms] at h; cases h
  | cons k ks ih =>
      simp only [collectPerms] at h
      by_cases hchk : (k.verbose_name.length : Int) > vmax
      · rw [if_pos hchk] at h
        cases h
        exact gfm_snd_eq tbl k
      · rw [if_neg hchk] at h
        cases hrec : collectPerms vmax ks (get_for_model tbl k).2 with
        | error e' =>
            rw [hrec] at h
            cases h
            obtain ⟨ext1, he1⟩ := gfm_snd_eq tbl k
            obtain ⟨ext2, he2⟩ := ih hrec
            exact ⟨ext1 ++ ext2, by simp only [he2, he1, List.append_assoc]⟩
        | ok out' => rw [hrec] at h; cases h

theorem collect_ok_nodup {vmax : Int} {models : List MongoModel}
    {tbl : List ContentType} {out : CollectOut}
    (h : collectPerms vmax models tbl = .ok out)
    (hnd : (tbl.map (fun c => c.pk)).Nodup) :
    (out.tbl.map (fun c => c.pk)).Nodup := by
  induction models generalizing tbl out with
  | nil => simp only [collectPerms] at h; cases h; exact hnd
  | cons k ks ih =>
      simp only [collectPerms] at h
      by_cases hchk : (k.verbose_name.length : Int) > vmax
      · simp [hchk] at h
      · rw [if_neg hchk] at h
        cases hrec : collectPerms vmax ks (get_for_model tbl k).2 with
        | error e => rw [hrec] at h; cases h
        | ok out' =>
            rw [hrec] at h
            cases h
            have hgoal := ih hrec (gfm_nodup k hnd)
            exact hgoal

theorem collect_ok_facts {vmax : Int} {models : List MongoModel}
    {tbl : List ContentType} {out : CollectOut}
    (h : collectPerms vmax models tbl = .ok out) :
    (∀ k ∈ models, ¬ ((k.verbose_name.length : Int) > vmax)) ∧
    (∀ k ∈ models, ∃ ct, out.tbl.find? (ctKey k) = some ct ∧ ct ∈ out.cts ∧
        ∀ pr ∈ get_default_permissions k, (ct, pr) ∈ out.searched) ∧
    (∀ e ∈ out.searched, ∃ k, k ∈ models ∧ out.tbl.find? (ctKey k) = some e.1 ∧
        e.1 ∈ out.cts ∧ e.2 ∈ get_default_permissions k) := by
  induction models generalizing tbl out with
  | nil =>
      simp only [collectPerms] at h
      cases h
      exact ⟨by simp, by simp, by simp⟩
  | cons k ks ih =>
      simp only [collectPerms] at h
      by_cases hchk : (k.verbose_name.length : Int) > vmax
      · simp [hchk] at h
      · rw [if_neg hchk] at h
        cases hrec : collectPerms vmax ks (get_for_model tbl k).2 with
        | error e => rw [hrec] at h; cases h
        | ok out' =>
            rw [hrec] at h
            cases h
            obtain ⟨hpass', hfor', hent'⟩ := ih hrec
            obtain ⟨ext, hext⟩ := collect_ok_tbl hrec
            have hfk : out'.tbl.find? (ctKey k) = some (get_for_model tbl k).1 := by
              rw [hext]; exact find?_append_left _ (gfm_find tbl k)
            refine ⟨?_, ?_, ?_⟩
            · intro k' hk'
              rcases List.mem_cons.1 hk' with rfl | hk'
              · exact hchk
              · exact hpass' k' hk'
            · intro k' hk'
              rcases List.mem_cons.1 hk' with rfl | hk'
              · refine ⟨(get_for_model tbl k').1, hfk, List.mem_cons_self _ _, ?_⟩
                intro pr hpr
                exact List.mem_append_left _ (List.mem_map_of_mem _ hpr)
              · obtain ⟨ct, hct, hcts, hprs⟩ := hfor' k' hk'
                exact ⟨ct, hct, List.mem_cons_of_mem _ hcts,
                  fun pr hpr => List.mem_append_right _ (hprs pr hpr)⟩
            · intro e he
              rcases List.mem_append.1 he with he | he
              · rcases List.mem_map.1 he with ⟨pr, hpr, rfl⟩
                exact ⟨k, List.mem_cons_self _ _, hfk, List.mem_cons_self _ _, hpr⟩
              · obtain ⟨k', hk', hfind, hcts, hpr⟩ := hent' e he
                exact ⟨k', List.mem_cons_of_mem _ hk', hfind,
                  List.mem_cons_of_mem _ hcts, hpr⟩

theorem collect_len {vmax : Int} {models : List MongoModel}
    {tbl : List ContentType} {out : CollectOut}
    (h : collectPerms vmax models tbl = .ok out) :
    out.searched.length = 3 * models.length := by
  induction models generalizing tbl out with
  | nil => simp only [collectPerms] at h; cases h; simp
  | cons k ks ih =>
      simp only [collectPerms] at h
      by_cases hchk : (k.verbose_name.length : Int) > vmax
      · simp [hchk] at h
      · rw [if_neg hchk] at h
        cases hrec : collectPerms vmax ks (get_for_model tbl k).2 with
        | error e => rw [hrec] at h; cases h
        | ok out' =>
            rw [hrec] at h
            cases h
            have hlen := ih hrec
            dsimp only
            simp only [List.length_append, List.length_map, List.length_cons,
              get_default_permissions, default_actions, List.length_map,
              List.length_cons, List.length_nil] at hlen ⊢
            omega

theorem collect_fixed {vmax : Int} {models : List MongoModel} {tbl : List ContentType}
    (hfound : ∀ k ∈ models, (tbl.find? (ctKey k)).isSome)
    (hpass : ∀ k ∈ models, ¬ ((k.verbose_name.length : Int) > vmax)) :
    ∃ out, collectPerms vmax models tbl = .ok out ∧ out.tbl = tbl := by
  induction models with
  | nil => exact ⟨⟨tbl, [], []⟩, rfl, rfl⟩
  | cons k ks ih =>
      obtain ⟨ct, hct⟩ := Option.isSome_iff_exists.1 (hfound k (List.mem_cons_self _ _))
      have hg := gfm_found hct
      obtain ⟨out', hout', htbl'⟩ :=
        ih (fun k' hk' => hfound k' (List.mem_cons_of_mem _ hk'))
          (fun k' hk' => hpass k' (List.mem_cons_of_mem _ hk'))
      refine ⟨⟨out'.tbl, ct :: out'.cts,
        (get_default_permissions k).map (fun pr => (ct, pr)) ++ out'.searched⟩, ?_, htbl'⟩
      simp only [collectPerms, hg]
      rw [if_neg (hpass k (List.mem_cons_self _ _))]
      rw [hout']

theorem collect_err_find {vmax : Int} {models : List MongoModel}
    {tbl : List ContentType} {e : List ContentType × String}
    (h : collectPerms vmax models tbl = .error e) :
    models.findIdx (fun k => decide ((k.verbose_name.length : Int) > vmax)) <
      models.length ∧
    ∀ k ∈ models.take
        (models.findIdx (fun k => decide ((k.verbose_name.length : Int) > vmax)) + 1),
      (e.1.find? (ctKey k)).isSome := by
  induction models generalizing tbl with
  | nil => simp only [collectPerms] at h; cases h
  | cons k ks ih =>
      simp only [collectPerms] at h
      by_cases hchk : (k.verbose_name.length : Int) > vmax
      · rw [if_pos hchk] at h
        cases h
        rw [List.findIdx_cons]
        simp only [decide_eq_true hchk, cond_true]
        refine ⟨by simp, ?_⟩
        intro k' hk'
        simp only [List.take, List.take_zero] at hk'
        rcases List.mem_singleton.1 (by simpa using hk') with rfl
        rw [gfm_find tbl k']
        rfl
      · rw [if_neg hchk] at h
        cases hrec : collectPerms vmax ks (get_for_model tbl k).2 with
        | ok out' => rw [hrec] at h; cases h
        | error e' =>
            rw [hrec] at h
            cases h
            obtain ⟨hlt, htake⟩ := ih hrec
            obtain ⟨ext, hext⟩ := collect_err_tbl hrec
            rw [List.findIdx_cons]
            simp only [decide_eq_false hchk, cond_false]
            refine ⟨by simp only [List.length_cons]; omega, ?_⟩
            intro k' hk'
            rw [List.take_succ_cons] at hk'
            rcases List.mem_cons.1 hk' with rfl | hk'
            · rw [hext, find?_append_left _ (gfm_find tbl k')]
              rfl
            · exact htake k' hk'

theorem count_head {k : MongoModel} {ct : ContentType} {a : String}
    (ha : a ∈ default_actions) :
    ((get_default_permissions k).map (fun pr => (ct, pr))).countP
      (fun e => e.1.pk == ct.pk && e.2.1 == get_permission_codename a k) = 1 := by
  have hne : ∀ b c : String, b ≠ c →
      (get_permission_codename b k == get_permission_codename c k) = false := by
    intro b c hbc
    exact beq_eq_false_iff_ne.2 (fun hh => hbc (codename_inj hh))
  simp only [default_actions, List.mem_cons, List.mem_singleton,
    List.not_mem_nil, or_false] at ha
  rcases ha with rfl | rfl | rfl
  · simp [get_default_permissions, default_actions, List.countP_cons,
      hne "change" "add" (by decide), hne "delete" "add" (by decide)]
  · simp [get_default_permissions, default_actions, List.countP_cons,
      hne "add" "change" (by decide), hne "delete" "change" (by decide)]
  · simp [get_default_permissions, default_actions, List.countP_cons,
      hne "add" "delete" (by decide), hne "change" "delete" (by decide)]

theorem collect_count {vmax : Int} {models : List MongoModel}
    {tbl : List ContentType} {out : CollectOut}
    (h : collectPerms vmax models tbl = .ok out)
    (hnd : (tbl.map (fun c => c.pk)).Nodup)
    (hkeys : models.Pairwise
      (fun m m' => ¬ (m.app_label = m'.app_label ∧ m.model_name = m'.model_name)))
    {M : MongoModel} (hM : M ∈ models) {a : String} (ha : a ∈ default_actions)
    {ct : ContentType} (hct : out.tbl.find? (ctKey M) = some ct) :
    out.searched.countP
      (fun e => e.1.pk == ct.pk && e.2.1 == get_permission_codename a M) = 1 := by
  induction models generalizing tbl out with
  | nil => cases hM
  | cons k ks ih =>
      simp only [collectPerms] at h
      by_cases hchk : (k.verbose_name.length : Int) > vmax
      · simp [hchk] at h
      · rw [if_neg hchk] at h
        cases hrec : collectPerms vmax ks (get_for_model tbl k).2 with
        | error e => rw [hrec] at h; cases h
        | ok out' =>
            rw [hrec] at h
            cases h
            have hnd1 : ((get_for_model tbl k).2.map (fun c => c.pk)).Nodup :=
              gfm_nodup k hnd
            have hndout : (out'.tbl.map (fun c => c.pk)).Nodup :=
              collect_ok_nodup hrec hnd1
            obtain ⟨ext, hext⟩ := collect_ok_tbl hrec
            have hfk : out'.tbl.find? (ctKey k) = some (get_for_model tbl k).1 := by
              rw [hext]; exact find?_append_left _ (gfm_find tbl k)
            have hkmem : (get_for_model tbl k).1 ∈ out'.tbl :=
              List.mem_of_find?_eq_some hfk
            obtain ⟨hk_ks, hkeys'⟩ := List.pairwise_cons.1 hkeys
            rw [List.countP_append]
            rcases List.mem_cons.1 hM with rfl | hMks
            · -- the model at the head of the registry slice
              have hctr : ct = (get_for_model tbl M).1 := by
                rw [hct] at hfk
                exact Option.some_injective _ hfk
              have h0 : out'.searched.countP
                  (fun e => e.1.pk == ct.pk && e.2.1 == get_permission_codename a M)
                    = 0 := by
                rw [List.countP_eq_zero]
                intro e he hpred
                obtain ⟨k', hk', hfind', hcts', hpr'⟩ :=
                  (collect_ok_facts hrec).2.2 e he
                have he1 : e.1 ∈ out'.tbl := List.mem_of_find?_eq_some hfind'
                have hpk : e.1.pk = ct.pk := by
                  simp only [Bool.and_eq_true, beq_iff_eq] at hpred
                  exact hpred.1
                have hee : e.1 = (get_for_model tbl M).1 :=
                  List.inj_on_of_nodup_map hndout he1 hkmem (by rw [hpk, hctr])
                have hck' : ctKey k' e.1 = true := List.find?_some hfind'
                have hckM : ctKey M e.1 = true := by
                  rw [hee]; exact gfm_key tbl M
                exact hk_ks k' hk' (key_clash hckM hck')
              rw [← hctr, h0, count_head ha]
            · -- the model lies further down the list
              have h1 : out'.searched.countP
                  (fun e => e.1.pk == ct.pk && e.2.1 == get_permission_codename a M)
                    = 1 := ih hrec hnd1 hkeys' hMks hct
              have h0 : (((get_default_permissions k).map
                  (fun pr => ((get_for_model tbl k).1, pr))).countP
                  (fun e => e.1.pk == ct.pk && e.2.1 == get_permission_codename a M))
                    = 0 := by
                rw [List.countP_eq_zero]
                intro e he hpred
                rcases List.mem_map.1 he with ⟨pr, hpr, rfl⟩
                have hpk : (get_for_model tbl k).1.pk = ct.pk := by
                  simp only [Bool.and_eq_true, beq_iff_eq] at hpred
                  exact hpred.1
                have hctmem : ct ∈ out'.tbl := List.mem_of_find?_eq_some hct
                have hee : (get_for_model tbl k).1 = ct :=
                  List.inj_on_of_nodup_map hndout hkmem hctmem hpk
                have hckM : ctKey M ct = true := List.find?_some hct
                have hckk : ctKey k ct = true := by
                  rw [← hee]; exact gfm_key tbl k
                exact hk_ks M hMks (key_clash hckk hckM)
              rw [h1, h0]

/-! ## Lemmas about the diff and insert phase -/

theorem mem_existingPairs {cts : List ContentType} {perms : List Permission}
    {pr : Nat × String} :
    pr ∈ existingPairs cts perms ↔
      ∃ q ∈ perms, (∃ c ∈ cts, c.pk = q.content_type.pk) ∧ permPair q = pr := by
  unfold existingPairs
  simp only [List.mem_map, List.mem_filter, List.any_eq_true, beq_iff_eq]
  constructor
  · rintro ⟨q, ⟨hq, hcts⟩, rfl⟩
    exact ⟨q, hq, hcts, rfl⟩
  · rintro ⟨q, hq, hcts, rfl⟩
    exact ⟨q, ⟨hq, hcts⟩, rfl⟩

theorem missingPerms_cons (pairs : List (Nat × String))
    (e : ContentType × (String × String))
    (t : List (ContentType × (String × String))) :
    missingPerms pairs (e :: t) =
      if (e.1.pk, e.2.1) ∈ pairs then missingPerms pairs t
      else (⟨e.1, e.2.1, e.2.2⟩ : Permission) :: missingPerms pairs t := by
  unfold missingPerms
  rw [List.filterMap_cons]
  by_cases hm : (e.1.pk, e.2.1) ∈ pairs
  · simp [hm]
  · simp [hm]

theorem missingPerms_eq_nil {pairs : List (Nat × String)}
    {searched : List (ContentType × (String × String))} :
    missingPerms pairs searched = [] ↔
      ∀ e ∈ searched, (e.1.pk, e.2.1) ∈ pairs := by
  unfold missingPerms
  rw [List.filterMap_eq_nil_iff]
  constructor
  · intro h e he
    have hcase := h e he
    by_cases hm : (e.1.pk, e.2.1) ∈ pairs
    · exact hm
    · simp [hm] at hcase
  · intro h e he
    simp [h e he]

theorem mem_missingPerms {pairs : List (Nat × String)}
    {searched : List (ContentType × (String × String))} {q : Permission} :
    q ∈ missingPerms pairs searched ↔
      ∃ e ∈ searched, ¬ ((e.1.pk, e.2.1) ∈ pairs) ∧ q = ⟨e.1, e.2.1, e.2.2⟩ := by
  unfold missingPerms
  simp only [List.mem_filterMap]
  constructor
  · rintro ⟨e, he, hfe⟩
    by_cases hm : (e.1.pk, e.2.1) ∈ pairs
    · simp [hm] at hfe
    · simp only [if_neg hm, Option.some.injEq] at hfe
      exact ⟨e, he, hm, hfe.symm⟩
  · rintro ⟨e, he, hm, rfl⟩
    exact ⟨e, he, by simp [hm]⟩

theorem missingPerms_countP (pairs : List (Nat × String))
    (searched : List (ContentType × (String × String))) (p : Permission → Bool) :
    (missingPerms pairs searched).countP p =
      searched.countP (fun e =>
        !decide ((e.1.pk, e.2.1) ∈ pairs) && p ⟨e.1, e.2.1, e.2.2⟩) := by
  induction searched with
  | nil => rfl
  | cons e t ih =>
      rw [missingPerms_cons, List.countP_cons]
      by_cases hm : (e.1.pk, e.2.1) ∈ pairs
      · simp [hm, ih]
      · rw [if_neg hm, List.countP_cons]
        simp [hm, ih]

/-- Every searched pair ends up covered in the final table: either a row
with its (content_type, codename) already existed, or the missing-row
comprehension inserts one. -/
theorem searched_covered (cts : List ContentType) (stp : List Permission)
    {searched : List (ContentType × (String × String))}
    {e : ContentType × (String × String)} (he : e ∈ searched) :
    ∃ row ∈ stp ++ missingPerms (existingPairs cts stp) searched,
      row.content_type.pk = e.1.pk ∧ row.codename = e.2.1 := by
  by_cases hm : (e.1.pk, e.2.1) ∈ existingPairs cts stp
  · obtain ⟨q, hq, _, hpair⟩ := mem_existingPairs.1 hm
    refine ⟨q, List.mem_append_left _ hq, ?_⟩
    have h1 : q.content_type.pk = e.1.pk := congrArg Prod.fst hpair
    have h2 : q.codename = e.2.1 := congrArg Prod.snd hpair
    exact ⟨h1, h2⟩
  · refine ⟨⟨e.1, e.2.1, e.2.2⟩, List.mem_append_right _ ?_, rfl, rfl⟩
    exact mem_missingPerms.2 ⟨e, he, hm, rfl⟩

/-! ## Shape of a full run -/

theorem run_eligible (env : Env) (app_config : AppConfig) (st : DBState)
    (happ : app_config.models_module = true)
    (hres : env.permission_resolvable = true)
    (hmig : env.allow_migrate = true) :
    create_permissions env app_config st =
      match collectPerms ((env.permission_name_max_length : Int) - 11)
          (get_mongo_models env.registry) st.ctypes with
      | .error e => ⟨⟨e.1, st.perms⟩, [], some e.2, false⟩
      | .ok out =>
          match (missingPerms (existingPairs out.cts st.perms) out.searched).find?
              (fun p => decide (p.name.length > env.permission_name_max_length)) with
          | some p =>
              ⟨⟨out.tbl, st.perms⟩, [],
               some ("The permission name " ++ p.name ++ " of " ++
                 p.content_type.app_label ++ "." ++ p.content_type.model ++
                 " is longer than " ++ toString env.permission_name_max_length ++
                 " characters"), false⟩
          | none =>
              ⟨⟨out.tbl,
                st.perms ++ missingPerms (existingPairs out.cts st.perms) out.searched⟩,
               missingPerms (existingPairs out.cts st.perms) out.searched,
               none, false⟩ := by
  unfold create_permissions
  rw [happ, hres, hmig]
  simp only [Bool.not_true, Bool.false_eq_true, if_false]

/-- Every name generated by `get_default_permissions` adds at most 11
characters in front of `verbose_name_raw`. -/
theorem default_name_length {m : MongoModel} {pr : String × String}
    (hpr : pr ∈ get_default_permissions m) :
    pr.2.length ≤ 11 + m.verbose_name_raw.length := by
  unfold get_default_permissions default_actions at hpr
  simp only [List.mem_map, List.mem_cons, List.not_mem_nil, or_false] at hpr
  obtain ⟨a, ha, rfl⟩ := hpr
  have h4 : "Can ".length = 4 := rfl
  have h1 : " ".length = 1 := rfl
  have ha3 : "add".length = 3 := rfl
  have hc6 : "change".length = 6 := rfl
  have hd6 : "delete".length = 6 := rfl
  rcases ha with rfl | rfl | rfl <;>
    simp only [String.length_append, h4, h1, ha3, hc6, hd6] <;> omega

theorem collect_err_bad {vmax : Int} {models : List MongoModel}
    {tbl : List ContentType} {e : List ContentType × String}
    (h : collectPerms vmax models tbl = .error e) :
    ∃ k ∈ models, ((k.verbose_name.length : Int) > vmax) := by
  induction models generalizing tbl with
  | nil => simp only [collectPerms] at h; cases h
  | cons k ks ih =>
      simp only [collectPerms] at h
      by_cases hchk : (k.verbose_name.length : Int) > vmax
      · exact ⟨k, List.mem_cons_self _ _, hchk⟩
      · rw [if_neg hchk] at h
        cases hrec : collectPerms vmax ks (get_for_model tbl k).2 with
        | error e' =>
            rw [hrec] at h
            cases h
            obtain ⟨k', hk', hc⟩ := ih hrec
            exact ⟨k', List.mem_cons_of_mem _ hk', hc⟩
        | ok out' => rw [hrec] at h; cases h

/-! ## Concrete fixtures used by the witnesses -/

def invoiceModel : MongoModel := ⟨"billing", "invoice", "invoice", "invoice", true⟩

def plainModel : MongoModel := ⟨"billing", "order", "order", "order", false⟩

def longModel : MongoModel := ⟨"a", "m", "xx", "xx", true⟩

def envW : Env := ⟨true, true, 255, [invoiceModel, plainModel]⟩

def envBad : Env := ⟨true, true, 12, [longModel]⟩

def appW : AppConfig := ⟨true⟩

def stW : DBState := ⟨[], []⟩

/-! ## The claims -/

/-- C5: if the app config has no models module, or the Permission model
cannot be resolved, or the target database alias is not allowed to migrate
it, `create_permissions` returns silently: no error, no insertion, and the
database state untouched (only the eligibility checks ran). -/
theorem claim_c5 (env : Env) (app_config : AppConfig) (st : DBState)
    (h : app_config.models_module = false ∨ env.permission_resolvable = false ∨
      env.allow_migrate = false) :
    create_permissions env app_config st = ⟨st, [], none, true⟩ := by
  rcases h with h | h | h
  · simp [create_permissions, h]
  · cases happ : app_config.models_module <;>
      simp [create_permissions, happ, h]
  · cases happ : app_config.models_module <;>
      cases hres : env.permission_resolvable <;>
        simp [create_permissions, happ, hres, h]

/-- Witness for C5 at a concrete input: the Permission model cannot be
resolved, so the run is a silent no-op. -/
theorem claim_c5_witness :
    create_permissions ⟨false, true, 255, [invoiceModel]⟩ ⟨true⟩ stW =
      ⟨stW, [], none, true⟩ :=
  claim_c5 ⟨false, true, 255, [invoiceModel]⟩ ⟨true⟩ stW (Or.inr (Or.inl rfl))

/-- C8: `create_permissions` only ever appends to the permission table: the
final table is exactly the starting rows (unchanged, in order) followed by
the rows it inserted, in every run (skip, abort or success). -/
theorem claim_c8 (env : Env) (app_config : AppConfig) (st : DBState) :
    (create_permissions env app_config st).state.perms =
      st.perms ++ (create_permissions env app_config st).inserted := by
  cases happ : app_config.models_module
  · simp [create_permissions, happ]
  · cases hres : env.permission_resolvable
    · simp [create_permissions, happ, hres]
    · cases hmig : env.allow_migrate
      · simp [create_permissions, happ, hres, hmig]
      · rw [run_eligible env app_config st happ hres hmig]
        cases hcol : collectPerms ((env.permission_name_max_length : Int) - 11)
            (get_mongo_models env.registry) st.ctypes with
        | error e => simp
        | ok out =>
            cases hfind : (missingPerms (existingPairs out.cts st.perms)
                out.searched).find?
                (fun p => decide (p.name.length > env.permission_name_max_length)) with
            | some p => simp [hfind]
            | none => simp [hfind]

/-- C6: when the override flag is set, the globally referenced default admin
site (at the attribute path selected by comparing the Django version with
1.9) becomes the mongoadmin site, whose registry now holds every entry the
old site had; the other path is untouched; without the flag nothing
changes. -/
theorem claim_c6 (v : List Nat) (g : AdminGlobals) :
    override_admin false v g = g ∧
    (versionLt v [1, 9, 0] = true →
      (override_admin true v g).admin_site.siteId = g.mongo_site.siteId ∧
      (override_admin true v g).admin_site.registry = g.admin_site.registry ∧
      (override_admin true v g).mongo_site = (override_admin true v g).admin_site ∧
      (override_admin true v g).admin_sites_site = g.admin_sites_site) ∧
    (versionLt v [1, 9, 0] = false →
      (override_admin true v g).admin_sites_site.siteId = g.mongo_site.siteId ∧
      (override_admin true v g).admin_sites_site.registry =
        g.admin_sites_site.registry ∧
      (override_admin true v g).mongo_site =
        (override_admin true v g).admin_sites_site ∧
      (override_admin true v g).admin_site = g.admin_site) := by
  refine ⟨rfl, ?_, ?_⟩ <;> intro hv <;> simp [override_admin, hv]

/-- C7: the reconciler's universe is exactly the registry keys that are
instances of the document metaclass, and a successful collection phase
produces exactly three searched permissions per such model. -/
theorem claim_c7 (registry : List MongoModel) (vmax : Int)
    (tbl : List ContentType) (out : CollectOut)
    (h : collectPerms vmax (get_mongo_models registry) tbl = .ok out) :
    (∀ m : MongoModel,
      m ∈ get_mongo_models registry ↔ m ∈ registry ∧ m.isDocument = true) ∧
    out.searched.length = 3 * (get_mongo_models registry).length := by
  refine ⟨?_, collect_len h⟩
  intro m
  simp [get_mongo_models, List.mem_filter]

/-- Witness for C7: a registry holding one document model and one relational
model; the loop succeeds and yields three searched permissions. -/
theorem claim_c7_witness :
    (∀ m : MongoModel,
      m ∈ get_mongo_models [invoiceModel, plainModel] ↔
        m ∈ [invoiceModel, plainModel] ∧ m.isDocument = true) ∧
    (⟨[⟨1, "billing", "invoice"⟩], [⟨1, "billing", "invoice"⟩],
      [(⟨1, "billing", "invoice"⟩, ("add_invoice", "Can add invoice")),
       (⟨1, "billing", "invoice"⟩, ("change_invoice", "Can change invoice")),
       (⟨1, "billing", "invoice"⟩, ("delete_invoice", "Can delete invoice"))]⟩ :
      CollectOut).searched.length = 3 * (get_mongo_models [invoiceModel, plainModel]).length :=
  claim_c7 [invoiceModel, plainModel] 244 [] _ (by rfl)

/-- C3: no run of `create_permissions` inserts a (content-type, codename)
pair that was already present in the permission table before the run. -/
theorem claim_c3 (env : Env) (app_config : AppConfig) (st : DBState)
    (p : Permission) (hp : p ∈ (create_permissions env app_config st).inserted) :
    ¬ ∃ q ∈ st.perms, q.content_type.pk = p.content_type.pk ∧
      q.codename = p.codename := by
  rintro ⟨q, hq, hqpk, hqcn⟩
  cases happ : app_config.models_module
  · simp [create_permissions, happ] at hp
  · cases hres : env.permission_resolvable
    · simp [create_permissions, happ, hres] at hp
    · cases hmig : env.allow_migrate
      · simp [create_permissions, happ, hres, hmig] at hp
      · rw [run_eligible env app_config st happ hres hmig] at hp
        cases hcol : collectPerms ((env.permission_name_max_length : Int) - 11)
            (get_mongo_models env.registry) st.ctypes with
        | error e =>
            rw [hcol] at hp
            simp at hp
        | ok out =>
            rw [hcol] at hp
            dsimp only at hp
            cases hfind : (missingPerms (existingPairs out.cts st.perms)
                out.searched).find?
                (fun r => decide (r.name.length > env.permission_name_max_length)) with
            | some r =>
                rw [hfind] at hp
                simp at hp
            | none =>
                rw [hfind] at hp
                dsimp only at hp
                obtain ⟨e, he, hm, rfl⟩ := mem_missingPerms.1 hp
                obtain ⟨k, hk, hfindk, hcts, hpr⟩ := (collect_ok_facts hcol).2.2 e he
                apply hm
                apply mem_existingPairs.2
                refine ⟨q, hq, ⟨e.1, hcts, hqpk.symm⟩, ?_⟩
                unfold permPair
                rw [hqpk, hqcn]

/-- Witness for C3: in the single-model scenario the first inserted row's
pair is absent from the (empty) starting table. -/
theorem claim_c3_witness :
    ¬ ∃ q ∈ stW.perms,
      q.content_type.pk =
        (⟨⟨1, "billing", "invoice"⟩, "add_invoice", "Can add invoice"⟩ :
          Permission).content_type.pk ∧
      q.codename =
        (⟨⟨1, "billing", "invoice"⟩, "add_invoice", "Can add invoice"⟩ :
          Permission).codename :=
  claim_c3 envW appW stW ⟨⟨1, "billing", "invoice"⟩, "add_invoice", "Can add invoice"⟩
    (List.Mem.head _)

/-- C4: a document model whose verbose name makes "Can delete " plus the
name exceed the permission-name field limit makes the run raise a
validation error and insert nothing: the whole batch is abandoned. -/
theorem claim_c4 (env : Env) (app_config : AppConfig) (st : DBState)
    (happ : app_config.models_module = true)
    (hres : env.permission_resolvable = true)
    (hmig : env.allow_migrate = true)
    (hbad : ∃ k ∈ get_mongo_models env.registry,
      ("Can delete " ++ k.verbose_name).length > env.permission_name_max_length) :
    (create_permissions env app_config st).error.isSome = true ∧
    (create_permissions env app_config st).inserted = [] ∧
    (create_permissions env app_config st).state.perms = st.perms := by
  have hbad' : ∃ k ∈ get_mongo_models env.registry,
      ((k.verbose_name.length : Int) > (env.permission_name_max_length : Int) - 11) := by
    obtain ⟨k, hk, hlen⟩ := hbad
    refine ⟨k, hk, ?_⟩
    have h11 : "Can delete ".length = 11 := rfl
    rw [String.length_append, h11] at hlen
    omega
  rw [run_eligible env app_config st happ hres hmig]
  cases hcol : collectPerms ((env.permission_name_max_length : Int) - 11)
      (get_mongo_models env.registry) st.ctypes with
  | ok out =>
      obtain ⟨k, hk, hlen⟩ := hbad'
      exact absurd hlen ((collect_ok_facts hcol).1 k hk)
  | error e => exact ⟨rfl, rfl, rfl⟩

/-- Witness for C4: a two-character verbose name against a field limit of
12 ("Can delete xx" has 13 characters) aborts the run with an error. -/
theorem claim_c4_witness :
    (create_permissions envBad appW stW).error.isSome = true ∧
    (create_permissions envBad appW stW).inserted = [] ∧
    (create_permissions envBad appW stW).state.perms = stW.perms :=
  claim_c4 envBad appW stW rfl rfl rfl
    ⟨longModel, by decide, by decide⟩

/-- C9: a validation-error abort is not atomic for content types: when some
document model fails the verbose-name length check, the run raises and
inserts no permission row, yet the content-type lookups (with creation) for
every model up to and including the first offender have already hit the
table, whose rows survive in the final state. -/
theorem claim_c9 (env : Env) (app_config : AppConfig) (st : DBState)
    (happ : app_config.models_module = true)
    (hres : env.permission_resolvable = true)
    (hmig : env.allow_migrate = true)
    (hbad : ∃ k ∈ get_mongo_models env.registry,
      (k.verbose_name.length : Int) > (env.permission_name_max_length : Int) - 11) :
    (create_permissions env app_config st).error.isSome = true ∧
    (create_permissions env app_config st).inserted = [] ∧
    (create_permissions env app_config st).state.perms = st.perms ∧
    (∃ ext, (create_permissions env app_config st).state.ctypes = st.ctypes ++ ext) ∧
    ∀ k ∈ (get_mongo_models env.registry).take
        ((get_mongo_models env.registry).findIdx
          (fun k => decide ((k.verbose_name.length : Int) >
            (env.permission_name_max_length : Int) - 11)) + 1),
      ((create_permissions env app_config st).state.ctypes.find? (ctKey k)).isSome
        = true := by
  rw [run_eligible env app_config st happ hres hmig]
  cases hcol : collectPerms ((env.permission_name_max_length : Int) - 11)
      (get_mongo_models env.registry) st.ctypes with
  | ok out =>
      obtain ⟨k, hk, hlen⟩ := hbad
      exact absurd hlen ((collect_ok_facts hcol).1 k hk)
  | error e =>
      obtain ⟨hlt, htake⟩ := collect_err_find hcol
      obtain ⟨ext, hext⟩ := collect_err_tbl hcol
      exact ⟨rfl, rfl, rfl, ⟨ext, hext⟩, fun k hk => htake k hk⟩

/-- Witness for C9: with a compliant model registered before the offending
one, the aborted run has persisted both content-type rows while inserting
no permission row. -/
theorem claim_c9_witness :
    (create_permissions ⟨true, true, 12, [invoiceModel, longModel]⟩ appW stW).error.isSome
      = true ∧
    (create_permissions ⟨true, true, 12, [invoiceModel, longModel]⟩ appW stW).inserted
      = [] ∧
    (create_permissions ⟨true, true, 12, [invoiceModel, longModel]⟩ appW stW).state.perms
      = stW.perms ∧
    (∃ ext,
      (create_permissions ⟨true, true, 12, [invoiceModel, longModel]⟩ appW stW).state.ctypes
        = stW.ctypes ++ ext) ∧
    ∀ k ∈ (get_mongo_models [invoiceModel, longModel]).take
        ((get_mongo_models [invoiceModel, longModel]).findIdx
          (fun k => decide ((k.verbose_name.length : Int) > ((12 : Nat) : Int) - 11)) + 1),
      ((create_permissions ⟨true, true, 12, [invoiceModel, longModel]⟩
          appW stW).state.ctypes.find? (ctKey k)).isSome = true :=
  claim_c9 ⟨true, true, 12, [invoiceModel, longModel]⟩ appW stW rfl rfl rfl
    ⟨longModel, by decide, by decide⟩

/-- C10: when every document model's verbose_name equals its
verbose_name_raw and each passes the per-model length check, the later
per-row re-check can never fire: the run raises no validation error. -/
theorem claim_c10 (env : Env) (app_config : AppConfig) (st : DBState)
    (hraw : ∀ k ∈ get_mongo_models env.registry,
      k.verbose_name = k.verbose_name_raw)
    (hpass : ∀ k ∈ get_mongo_models env.registry,
      (k.verbose_name.length : Int) ≤ (env.permission_name_max_length : Int) - 11) :
    (create_permissions env app_config st).error = none := by
  cases happ : app_config.models_module
  · simp [create_permissions, happ]
  · cases hres : env.permission_resolvable
    · simp [create_permissions, happ, hres]
    · cases hmig : env.allow_migrate
      · simp [create_permissions, happ, hres, hmig]
      · rw [run_eligible env app_config st happ hres hmig]
        cases hcol : collectPerms ((env.permission_name_max_length : Int) - 11)
            (get_mongo_models env.registry) st.ctypes with
        | error e =>
            obtain ⟨k, hk, hch⟩ := collect_err_bad hcol
            exact absurd hch (not_lt.2 (hpass k hk))
        | ok out =>
            cases hfind : (missingPerms (existingPairs out.cts st.perms)
                out.searched).find?
                (fun p => decide (p.name.length > env.permission_name_max_length)) with
            | some p =>
                have hpb := List.find?_some hfind
                have hpmem := List.mem_of_find?_eq_some hfind
                obtain ⟨e, he, hm, rfl⟩ := mem_missingPerms.1 hpmem
                obtain ⟨k, hk, hfindk, hcts, hpr⟩ := (collect_ok_facts hcol).2.2 e he
                have hname := default_name_length hpr
                have hverb := hraw k hk
                have hple := hpass k hk
                rw [← hverb] at hname
                have hnot : ¬ (e.2.2.length > env.permission_name_max_length) := by
                  omega
                exact absurd (of_decide_eq_true hpb) hnot
            | none =>
                dsimp only
                rw [hfind]

/-- Witness for C10: the single-model scenario has equal verbose names and
passes the check, so the run finishes without an error. -/
theorem claim_c10_witness :
    (create_permissions envW appW stW).error = none :=
  claim_c10 envW appW stW (by decide) (by decide)

/-- C2: the reconciler is idempotent: after a successful run, running it
again on the resulting state inserts nothing and leaves the database state
exactly as the first run left it. -/
theorem claim_c2 (env : Env) (app_config : AppConfig) (st : DBState)
    (happ : app_config.models_module = true)
    (hres : env.permission_resolvable = true)
    (hmig : env.allow_migrate = true)
    (herr : (create_permissions env app_config st).error = none) :
    (create_permissions env app_config
        (create_permissions env app_config st).state).state =
      (create_permissions env app_config st).state ∧
    (create_permissions env app_config
        (create_permissions env app_config st).state).inserted = [] := by
  have h1 := run_eligible env app_config st happ hres hmig
  cases hcol : collectPerms ((env.permission_name_max_length : Int) - 11)
      (get_mongo_models env.registry) st.ctypes with
  | error e =>
      rw [hcol] at h1
      rw [h1] at herr
      simp at herr
  | ok out =>
      rw [hcol] at h1
      dsimp only at h1
      cases hfind : (missingPerms (existingPairs out.cts st.perms) out.searched).find?
          (fun p => decide (p.name.length > env.permission_name_max_length)) with
      | some p =>
          rw [hfind] at h1
          rw [h1] at herr
          simp at herr
      | none =>
          rw [hfind] at h1
          obtain ⟨hpass, hfor, hent⟩ := collect_ok_facts hcol
          have hfound : ∀ k ∈ get_mongo_models env.registry,
              (out.tbl.find? (ctKey k)).isSome := by
            intro k hk
            obtain ⟨ct, hct, _, _⟩ := hfor k hk
            rw [hct]; rfl
          obtain ⟨out2, hcol2, htbl2⟩ := collect_fixed hfound hpass
          obtain ⟨hpass2, hfor2, hent2⟩ := collect_ok_facts hcol2
          have h2 := run_eligible env app_config
            ⟨out.tbl,
              st.perms ++ missingPerms (existingPairs out.cts st.perms) out.searched⟩
            happ hres hmig
          dsimp only at h2
          rw [hcol2] at h2
          dsimp only at h2
          have hmis2 : missingPerms
              (existingPairs out2.cts
                (st.perms ++ missingPerms (existingPairs out.cts st.perms) out.searched))
              out2.searched = [] := by
            rw [missingPerms_eq_nil]
            intro e he
            have hmem : (e.1.pk, e.2.1) ∈ existingPairs out2.cts
                (st.perms ++ missingPerms (existingPairs out.cts st.perms)
                  out.searched) := by
              obtain ⟨k, hk, hfind2, hcts2, hpr⟩ := hent2 e he
              rw [htbl2] at hfind2
              obtain ⟨ct1, hct1, hcts1, hprs1⟩ := hfor k hk
              have hect : e.1 = ct1 := by
                rw [hfind2] at hct1
                exact Option.some_injective _ hct1
              have hmem1 : (ct1, e.2) ∈ out.searched := hprs1 e.2 hpr
              obtain ⟨row, hrow, hrpk, hrcn⟩ :=
                searched_covered out.cts st.perms hmem1
              apply mem_existingPairs.2
              refine ⟨row, hrow, ⟨e.1, hcts2, ?_⟩, ?_⟩
              · rw [hect, hrpk]
              · unfold permPair
                rw [hrpk, hrcn, hect]
            exact hmem
          rw [hmis2] at h2
          simp only [List.find?_nil] at h2
          rw [h1]
          dsimp only
          rw [h2]
          constructor
          · rw [htbl2, List.append_nil]
          · rfl

/-- Witness for C2: in the single-model scenario the second run leaves the
state of the first run unchanged and inserts nothing. -/
theorem claim_c2_witness :
    (create_permissions envW appW (create_permissions envW appW stW).state).state =
      (create_permissions envW appW stW).state ∧
    (create_permissions envW appW (create_permissions envW appW stW).state).inserted
      = [] :=
  claim_c2 envW appW stW rfl rfl rfl (by rfl)

/-- C1: after an error-free eligible run, every registered document model
has, for each of the three actions, exactly one permission row bearing its
content type, the codename action_model and the name "Can action verbose" —
given a well-formed starting state: distinct content-type primary keys,
document models with distinct (app_label, model_name) keys, no duplicate
(content-type, codename) pair in the permission table, and pre-existing
rows for that pair already carrying the canonical name. -/
theorem claim_c1 (env : Env) (app_config : AppConfig) (st : DBState)
    (M : MongoModel) (a : String)
    (happ : app_config.models_module = true)
    (hres : env.permission_resolvable = true)
    (hmig : env.allow_migrate = true)
    (herr : (create_permissions env app_config st).error = none)
    (hM : M ∈ get_mongo_models env.registry)
    (ha : a ∈ default_actions)
    (hnd : (st.ctypes.map (fun c => c.pk)).Nodup)
    (hkeys : (get_mongo_models env.registry).Pairwise
      (fun m m' => ¬ (m.app_label = m'.app_label ∧ m.model_name = m'.model_name)))
    (hpairs : (st.perms.map permPair).Nodup) :
    ∃ ct,
      (create_permissions env app_config st).state.ctypes.find? (ctKey M)
        = some ct ∧
      ((∀ q ∈ st.perms, q.content_type.pk = ct.pk →
          q.codename = get_permission_codename a M →
          q.name = "Can " ++ a ++ " " ++ M.verbose_name_raw) →
        (create_permissions env app_config st).state.perms.countP
          (fun p => p.content_type.pk == ct.pk &&
            p.codename == get_permission_codename a M &&
            p.name == "Can " ++ a ++ " " ++ M.verbose_name_raw) = 1) := by
  have h1 := run_eligible env app_config st happ hres hmig
  cases hcol : collectPerms ((env.permission_name_max_length : Int) - 11)
      (get_mongo_models env.registry) st.ctypes with
  | error e =>
      rw [hcol] at h1
      rw [h1] at herr
      simp at herr
  | ok out =>
      rw [hcol] at h1
      dsimp only at h1
      cases hfind : (missingPerms (existingPairs out.cts st.perms) out.searched).find?
          (fun p => decide (p.name.length > env.permission_name_max_length)) with
      | some p =>
          rw [hfind] at h1
          rw [h1] at herr
          simp at herr
      | none =>
          rw [hfind] at h1
          rw [h1]
          dsimp only
          obtain ⟨hpass, hfor, hent⟩ := collect_ok_facts hcol
          obtain ⟨ct, hct, hcts, hprs⟩ := hfor M hM
          refine ⟨ct, hct, ?_⟩
          intro hname
          have hmemsearch : (ct, (get_permission_codename a M,
              "Can " ++ a ++ " " ++ M.verbose_name_raw)) ∈ out.searched := by
            apply hprs
            unfold get_default_permissions
            exact List.mem_map.2 ⟨a, ha, rfl⟩
          have hcnt := collect_count hcol hnd hkeys hM ha hct
          rw [List.countP_append]
          by_cases hin : (ct.pk, get_permission_codename a M) ∈
              existingPairs out.cts st.perms
          · -- the pair pre-exists: the old row is the unique match and the
            -- comprehension drops every searched entry with this pair
            obtain ⟨q0, hq0, hc0, hp0⟩ := mem_existingPairs.1 hin
            have h1q : q0.content_type.pk = ct.pk := by
              have hfst := congrArg Prod.fst hp0
              simpa [permPair] using hfst
            have h2q : q0.codename = get_permission_codename a M := by
              have hsnd := congrArg Prod.snd hp0
              simpa [permPair] using hsnd
            have h3q : q0.name = "Can " ++ a ++ " " ++ M.verbose_name_raw :=
              hname q0 hq0 h1q h2q
            have hge : 0 < st.perms.countP
                (fun p => p.content_type.pk == ct.pk &&
                  p.codename == get_permission_codename a M &&
                  p.name == "Can " ++ a ++ " " ++ M.verbose_name_raw) :=
              List.countP_pos_iff.2 ⟨q0, hq0, by simp [h1q, h2q, h3q]⟩
            have hmono : st.perms.countP
                (fun p => p.content_type.pk == ct.pk &&
                  p.codename == get_permission_codename a M &&
                  p.name == "Can " ++ a ++ " " ++ M.verbose_name_raw) ≤
                st.perms.countP (fun q =>
                  decide (permPair q = (ct.pk, get_permission_codename a M))) := by
              apply List.countP_mono_left
              intro q hq hqp
              simp only [Bool.and_eq_true, beq_iff_eq] at hqp
              simp [permPair, hqp.1.1, hqp.1.2]
            have hle := countP_le_one_of_nodup_map hpairs
              (ct.pk, get_permission_codename a M)
            have hst1 : st.perms.countP
                (fun p => p.content_type.pk == ct.pk &&
                  p.codename == get_permission_codename a M &&
                  p.name == "Can " ++ a ++ " " ++ M.verbose_name_raw) = 1 :=
              le_antisymm (hmono.trans hle) hge
            have hmis0 : (missingPerms (existingPairs out.cts st.perms)
                out.searched).countP
                (fun p => p.content_type.pk == ct.pk &&
                  p.codename == get_permission_codename a M &&
                  p.name == "Can " ++ a ++ " " ++ M.verbose_name_raw) = 0 := by
              rw [List.countP_eq_zero]
              intro p hp hpred
              obtain ⟨e, he, hm, rfl⟩ := mem_missingPerms.1 hp
              simp only [Bool.and_eq_true, beq_iff_eq] at hpred
              exact hm (by rw [hpred.1.1, hpred.1.2]; exact hin)
            rw [hst1, hmis0]
          · -- the pair is new: no old row matches and exactly one row is
            -- inserted for it
            have hst0 : st.perms.countP
                (fun p => p.content_type.pk == ct.pk &&
                  p.codename == get_permission_codename a M &&
                  p.name == "Can " ++ a ++ " " ++ M.verbose_name_raw) = 0 := by
              rw [List.countP_eq_zero]
              intro q hq hpred
              simp only [Bool.and_eq_true, beq_iff_eq] at hpred
              apply hin
              apply mem_existingPairs.2
              exact ⟨q, hq, ⟨ct, hcts, hpred.1.1.symm⟩,
                by simp [permPair, hpred.1.1, hpred.1.2]⟩
            have hcntmis := missingPerms_countP (existingPairs out.cts st.perms)
              out.searched
              (fun p => p.content_type.pk == ct.pk &&
                p.codename == get_permission_codename a M &&
                p.name == "Can " ++ a ++ " " ++ M.verbose_name_raw)
            have hup : out.searched.countP
                (fun e => !decide ((e.1.pk, e.2.1) ∈ existingPairs out.cts st.perms)
                  && ((fun p : Permission => p.content_type.pk == ct.pk &&
                    p.codename == get_permission_codename a M &&
                    p.name == "Can " ++ a ++ " " ++ M.verbose_name_raw)
                      ⟨e.1, e.2.1, e.2.2⟩)) ≤
                out.searched.countP
                  (fun e => e.1.pk == ct.pk &&
                    e.2.1 == get_permission_codename a M) := by
              apply List.countP_mono_left
              intro e he hb
              simp only [Bool.and_eq_true, beq_iff_eq] at hb ⊢
              exact ⟨hb.2.1.1, hb.2.1.2⟩
            have hlow : 0 < out.searched.countP
                (fun e => !decide ((e.1.pk, e.2.1) ∈ existingPairs out.cts st.perms)
                  && ((fun p : Permission => p.content_type.pk == ct.pk &&
                    p.codename == get_permission_codename a M &&
                    p.name == "Can " ++ a ++ " " ++ M.verbose_name_raw)
                      ⟨e.1, e.2.1, e.2.2⟩)) :=
              List.countP_pos_iff.2 ⟨(ct, (get_permission_codename a M,
                "Can " ++ a ++ " " ++ M.verbose_name_raw)), hmemsearch, by simp [hin]⟩
            have hmis1 : (missingPerms (existingPairs out.cts st.perms)
                out.searched).countP
                (fun p => p.content_type.pk == ct.pk &&
                  p.codename == get_permission_codename a M &&
                  p.name == "Can " ++ a ++ " " ++ M.verbose_name_raw) = 1 := by
              rw [hcntmis]
              exact le_antisymm (hup.trans (le_of_eq hcnt)) hlow
            rw [hst0, hmis1]

/-- Witness for C1: the Invoice scenario from empty tables yields exactly
one add_invoice row with content type (billing, invoice). -/
theorem claim_c1_witness :
    ∃ ct,
      (create_permissions envW appW stW).state.ctypes.find? (ctKey invoiceModel)
        = some ct ∧
      ((∀ q ∈ stW.perms, q.content_type.pk = ct.pk →
          q.codename = get_permission_codename "add" invoiceModel →
          q.name = "Can " ++ "add" ++ " " ++ invoiceModel.verbose_name_raw) →
        (create_permissions envW appW stW).state.perms.countP
          (fun p => p.content_type.pk == ct.pk &&
            p.codename == get_permission_codename "add" invoiceModel &&
            p.name == "Can " ++ "add" ++ " " ++ invoiceModel.verbose_name_raw) = 1) :=
  claim_c1 envW appW stW invoiceModel "add" rfl rfl rfl (by rfl) (by decide)
    (by decide) (by decide) (by decide) (by decide)

end MongoAdmin
